import Mathlib

/-!
Shallow embedding of the folder-naming utility (src/app.js) and proofs of
the specified properties of its core: normalizers, name composer, the
TTL cache, and the two dataset-fetch pipelines.

JavaScript strings are modelled as Lean strings (lists of characters);
the ECMAScript case mappings and whitespace class are modelled on the
ASCII range that the application regexes and data operate on.  The
persistent key-value store is modelled as a function from keys to an
optional stored value, and the nondeterministic parts of the runtime
(current time, network response, the locale-aware comparator backing
localeCompare) are explicit parameters.
-/

namespace FolderNaming

/-- Model of the ECMAScript toLowerCase character mapping on the ASCII range. -/
def asciiLower (c : Char) : Char :=
  if 65 ≤ c.toNat ∧ c.toNat ≤ 90 then Char.ofNat (c.toNat + 32) else c

/-- Model of the ECMAScript toUpperCase character mapping on the ASCII range. -/
def asciiUpper (c : Char) : Char :=
  if 97 ≤ c.toNat ∧ c.toNat ≤ 122 then Char.ofNat (c.toNat - 32) else c

/-- Model of the ECMAScript whitespace class (space, tab, LF, VT, FF, CR, NBSP). -/
def isWS (c : Char) : Bool :=
  decide (c.toNat = 32 ∨ c.toNat = 9 ∨ c.toNat = 10 ∨ c.toNat = 11 ∨
          c.toNat = 12 ∨ c.toNat = 13 ∨ c.toNat = 160)

/-- Characters dropped from both ends, as String.prototype.trim does. -/
def trimChars (l : List Char) : List Char :=
  ((l.dropWhile isWS).reverse.dropWhile isWS).reverse

/-- Model of String.prototype.trim. -/
def jsTrim (s : String) : String := ⟨trimChars s.data⟩

/-- Model of String.prototype.toLowerCase. -/
def jsToLowerCase (s : String) : String := ⟨s.data.map asciiLower⟩

/-- Model of String.prototype.toUpperCase. -/
def jsToUpperCase (s : String) : String := ⟨s.data.map asciiUpper⟩

/-- Test for the regex of three lowercase Latin letters, anchored at both ends. -/
def isLower3 (s : String) : Bool :=
  s.data.length == 3 && s.data.all (fun c => 97 ≤ c.toNat && c.toNat ≤ 122)

/-- Test for the regex of three uppercase Latin letters, anchored at both ends. -/
def isUpper3 (s : String) : Bool :=
  s.data.length == 3 && s.data.all (fun c => 65 ≤ c.toNat && c.toNat ≤ 90)

/-- Model of the JavaScript idiom (s || ''): an absent value becomes the
empty string, and the empty string is unchanged. -/
def orEmpty (s : Option String) : String := s.getD ""

/-- Model of replacing every maximal whitespace run by a single space,
as the regex replacement of runs of whitespace with one space does. -/
def collapseWS : List Char → List Char
  | [] => []
  | [c] => [if isWS c then ' ' else c]
  | c :: d :: rest =>
    if isWS c && isWS d then collapseWS (d :: rest)
    else (if isWS c then ' ' else c) :: collapseWS (d :: rest)

/-- Embedding of clean: trim, then collapse whitespace runs to one space. -/
def clean (s : Option String) : String :=
  ⟨collapseWS (trimChars (orEmpty s).data)⟩

/-- Embedding of normLang: trim and lowercase, keep only a three-letter
lowercase result. -/
def normLang (s : Option String) : String :=
  let x := jsToLowerCase (jsTrim (orEmpty s))
  if isLower3 x then x else ""

/-- Embedding of normCountry: trim and uppercase, keep only a three-letter
uppercase result. -/
def normCountry (s : Option String) : String :=
  let x := jsToUpperCase (jsTrim (orEmpty s))
  if isUpper3 x then x else ""

/-- Embedding of yyyymmdd: remove every hyphen from the date string. -/
def yyyymmdd (s : Option String) : String :=
  ⟨(orEmpty s).data.filter (fun c => c != '-')⟩

/-- Model of Array.prototype.join with a separator string. -/
def joinSep (sep : String) : List String → String
  | [] => ""
  | [x] => x
  | x :: y :: xs => x ++ sep ++ joinSep sep (y :: xs)

/-- Argument object of composeName; absent fields are represented by none. -/
structure ComposeInput where
  name : Option String
  lang : Option String
  country : Option String
  event : Option String
  includeDate : Bool
  date : Option String

/-- The locale token of composeName: normalized language and country,
the empty ones filtered out, joined by a hyphen. -/
def localeToken (i : ComposeInput) : String :=
  joinSep "-" (([normLang i.lang, normCountry i.country]).filter (fun t => t != ""))

/-- Embedding of composeName: push each non-empty token in order, then
join the pushed tokens with the three-character separator. -/
def composeName (i : ComposeInput) : String :=
  let tokens : List String := []
  let n := clean i.name
  let tokens := if n = "" then tokens else tokens ++ [n]
  let loc := localeToken i
  let tokens := if loc = "" then tokens else tokens ++ [loc]
  let ev := clean i.event
  let tokens := if ev = "" then tokens else tokens ++ [ev]
  let dt := if i.includeDate then yyyymmdd i.date else ""
  let tokens := if dt = "" then tokens else tokens ++ [dt]
  joinSep " - " tokens

/-- The four candidate tokens of composeName in their fixed order:
cleaned name, locale token, cleaned event, and the compact date when
includeDate is set. -/
def tokensOf (i : ComposeInput) : List String :=
  [clean i.name, localeToken i, clean i.event,
   if i.includeDate then yyyymmdd i.date else ""]

/-- Containment of one string in another, as a contiguous substring. -/
def substrOf (needle hay : String) : Prop :=
  ∃ pre post, hay.data = pre ++ needle.data ++ post

/-- One language or country row of a loaded dataset. -/
structure ReferenceEntry where
  code : String
  name : String
deriving DecidableEq, Repr

/-- What a stored string under one key parses to: a parse failure, a
parse result that is falsy (such as a stored null), or a well-formed
record with a timestamp ts and a data array. -/
inductive StoredValue where
  | malformed : StoredValue
  | parsedFalsy : StoredValue
  | entry : Int → List ReferenceEntry → StoredValue
deriving DecidableEq

/-- The persistent key-value store: none models an absent key. -/
abbrev Store := String → Option StoredValue

/-- Embedding of TTL: seven days in milliseconds. -/
def TTL : Int := 7 * 24 * 60 * 60 * 1000

/-- Embedding of getCache: parse the stored string, treat a parse failure
or a falsy parse as a miss, treat an entry older than TTL as a miss,
and otherwise return the stored data. -/
def getCache (store : Store) (now : Int) (key : String) : Option (List ReferenceEntry) :=
  match store key with
  | none => none
  | some StoredValue.malformed => none
  | some StoredValue.parsedFalsy => none
  | some (StoredValue.entry ts data) => if now - ts > TTL then none else some data

/-- Embedding of setCache: store the timestamped data under the key,
replacing whatever was there. -/
def setCache (store : Store) (now : Int) (key : String) (data : List ReferenceEntry) : Store :=
  fun k => if k = key then some (StoredValue.entry now data) else store k

/-- Embedding of the built-in languages fallback list. -/
def languagesStub : List ReferenceEntry :=
  [⟨"eng", "English"⟩, ⟨"fra", "French"⟩, ⟨"spa", "Spanish"⟩, ⟨"deu", "German"⟩,
   ⟨"por", "Portuguese"⟩, ⟨"ita", "Italian"⟩, ⟨"zho", "Chinese"⟩, ⟨"jpn", "Japanese"⟩,
   ⟨"rus", "Russian"⟩, ⟨"ara", "Arabic"⟩]

/-- Embedding of the built-in countries fallback list. -/
def countriesStub : List ReferenceEntry :=
  [⟨"USA", "United States"⟩, ⟨"FRA", "France"⟩, ⟨"GBR", "United Kingdom"⟩, ⟨"DEU", "Germany"⟩,
   ⟨"ESP", "Spain"⟩, ⟨"ITA", "Italy"⟩, ⟨"BRA", "Brazil"⟩, ⟨"CAN", "Canada"⟩,
   ⟨"JPN", "Japan"⟩, ⟨"AUS", "Australia"⟩]

/-- A raw remote row of the countries query: the cca3 field and the
common name, each possibly absent. -/
structure CountryRow where
  cca3 : Option String
  common : Option String
deriving DecidableEq, Repr

/-- The truthiness filter of the countries pipeline: both the cca3 field
and the common name must be present and non-empty. -/
def countryRowOk (r : CountryRow) : Bool :=
  match r.cca3, r.common with
  | some c, some n => c != "" && n != ""
  | _, _ => false

/-- The map step of the countries pipeline: uppercase the code, keep the
common name. -/
def countryEntry (r : CountryRow) : ReferenceEntry :=
  ⟨jsToUpperCase (orEmpty r.cca3), orEmpty r.common⟩

/-- A raw remote row of the languages query: the entries of its languages
object, in insertion order; an absent languages object is the empty list. -/
abbrev LangRow := List (String × String)

/-- One step of the languages accumulation: lowercase the code, skip it
unless it is three lowercase letters, and keep only the first name seen
for each code, preserving insertion order. -/
def addLangEntry (m : List ReferenceEntry) (p : String × String) : List ReferenceEntry :=
  let c := jsToLowerCase p.1
  if isLower3 c then
    if m.any (fun e => e.code == c) then m else m ++ [⟨c, p.2⟩]
  else m

/-- The accumulation over all rows of the languages pipeline, in row
order then entry order, starting from the empty map. -/
def collectLangs (rows : List LangRow) : List ReferenceEntry :=
  rows.flatten.foldl addLangEntry []

/-- Insertion of one element into a sorted list, after every element
that compares at or below it, so that ties keep their original order. -/
def insertSorted (le : α → α → Bool) (x : α) : List α → List α
  | [] => [x]
  | y :: ys => if le y x then y :: insertSorted le x ys else x :: y :: ys

/-- Model of the stable comparator sort of Array.prototype.sort: for a
consistent comparator the ECMAScript specification determines the output
as the unique stable sorted rearrangement, which this computes. -/
def jsSort (le : α → α → Bool) (l : List α) : List α :=
  l.foldl (fun acc x => insertSorted le x acc) []

/-- The transform of the countries pipeline: filter, map, then a stable
sort ascending by name under the locale comparator le. -/
def countriesTransform (le : String → String → Bool) (rows : List CountryRow) :
    List ReferenceEntry :=
  jsSort (fun a b => le a.name b.name) ((rows.filter countryRowOk).map countryEntry)

/-- The transform of the languages pipeline: accumulate first-seen names
per valid code, then a stable sort ascending by name under le. -/
def languagesTransform (le : String → String → Bool) (rows : List LangRow) :
    List ReferenceEntry :=
  jsSort (fun a b => le a.name b.name) (collectLangs rows)

/-- Cache key of the countries dataset. -/
def countriesKey : String := "countries.v1"

/-- Cache key of the languages dataset. -/
def languagesKey : String := "languages.v1"

/-- Observable outcome of one pipeline run: the returned list, the store
afterwards, and whether a network request was issued. -/
structure FetchOutcome where
  data : List ReferenceEntry
  store : Store
  networkUsed : Bool

/-- Embedding of fetchCountries. The remote argument models the fetch
and JSON decode: none when any exception occurs, some rows on success.
A cache hit is returned at once without touching the network; a
successful fetch is transformed, written through, and returned; any
failure falls back to the static stub without a cache write. -/
def fetchCountries (le : String → String → Bool) (store : Store) (now : Int)
    (remote : Option (List CountryRow)) : FetchOutcome :=
  match getCache store now countriesKey with
  | some cached => ⟨cached, store, false⟩
  | none =>
    match remote with
    | none => ⟨countriesStub, store, true⟩
    | some rows =>
      let data := countriesTransform le rows
      ⟨data, setCache store now countriesKey data, true⟩

/-- Embedding of fetchLanguages, with the same three-tier policy as
fetchCountries and the languages transform. -/
def fetchLanguages (le : String → String → Bool) (store : Store) (now : Int)
    (remote : Option (List LangRow)) : FetchOutcome :=
  match getCache store now languagesKey with
  | some cached => ⟨cached, store, false⟩
  | none =>
    match remote with
    | none => ⟨languagesStub, store, true⟩
    | some rows =>
      let data := languagesTransform le rows
      ⟨data, setCache store now languagesKey data, true⟩

/-- A concrete total comparator on strings (byte order), standing in for
one definite behaviour of localeCompare when concrete runs are needed. -/
def charListLe : List Char → List Char → Bool
  | [], _ => true
  | _ :: _, [] => false
  | a :: as, b :: bs =>
    if a.toNat < b.toNat then true
    else if b.toNat < a.toNat then false
    else charListLe as bs

/-- The string form of the concrete comparator. -/
def lcCompareLe (a b : String) : Bool := charListLe a.data b.data

/-- The first name attached to code c in the stream of pairs ps, after
lowercasing codes and dropping the ones that are not three lowercase
letters. -/
def normPair (p : String × String) : Option (String × String) :=
  let c := jsToLowerCase p.1
  if isLower3 c then some (c, p.2) else none

/-- First accepted name for a code in a pair stream, in stream order. -/
def firstNorm (ps : List (String × String)) (c : String) : Option String :=
  ((ps.filterMap normPair).find? (fun q => q.1 == c)).map (fun q => q.2)

/-- A concrete well-formed country row, used to exhibit duplicate rows. -/
def dupRow : CountryRow := ⟨some "USA", some "United States"⟩

/-- A concrete country row whose code is present but not three letters. -/
def zzRow : CountryRow := ⟨some "Zz", some "Zedland"⟩

/-! ### Helper lemmas -/

theorem charListLe_total : ∀ a b : List Char, (charListLe a b || charListLe b a) = true := by
  intro a
  induction a with
  | nil => intro b; simp [charListLe]
  | cons x xs ih =>
    intro b
    cases b with
    | nil => simp [charListLe]
    | cons y ys =>
      by_cases h1 : x.toNat < y.toNat
      · simp [charListLe, h1]
      · by_cases h2 : y.toNat < x.toNat
        · simp [charListLe, h1, h2]
        · simp [charListLe, h1, h2, ih ys]

theorem charListLe_trans :
    ∀ a b c : List Char, charListLe a b = true → charListLe b c = true →
      charListLe a c = true := by
  intro a
  induction a with
  | nil => intro b c _ _; rfl
  | cons x xs ih =>
    intro b c hab hbc
    cases b with
    | nil => simp [charListLe] at hab
    | cons y ys =>
      cases c with
      | nil => simp [charListLe] at hbc
      | cons z zs =>
        simp only [charListLe] at hab hbc ⊢
        by_cases h1 : x.toNat < y.toNat
        · have h2 : ¬ z.toNat < y.toNat := by
            intro hz
            rw [if_neg (by omega), if_pos hz] at hbc
            exact absurd hbc (by simp)
          rw [if_pos (by omega)]
        · by_cases h2 : y.toNat < x.toNat
          · rw [if_neg h1, if_pos h2] at hab
            exact absurd hab (by simp)
          · rw [if_neg h1, if_neg h2] at hab
            by_cases h3 : y.toNat < z.toNat
            · rw [if_pos (by omega)]
            · by_cases h4 : z.toNat < y.toNat
              · rw [if_neg h3, if_pos h4] at hbc
                exact absurd hbc (by simp)
              · rw [if_neg h3, if_neg h4] at hbc
                rw [if_neg (by omega), if_neg (by omega)]
                exact ih ys zs hab hbc

theorem dropWhile_isWS_id {l : List Char} (h : ∀ c ∈ l, isWS c = false) :
    l.dropWhile isWS = l := by
  cases l with
  | nil => rfl
  | cons c rest => simp [List.dropWhile_cons, h c (by simp)]

theorem trimChars_id {l : List Char} (h : ∀ c ∈ l, isWS c = false) :
    trimChars l = l := by
  unfold trimChars
  rw [dropWhile_isWS_id h,
    dropWhile_isWS_id (fun c hc => h c (List.mem_reverse.mp hc)),
    List.reverse_reverse]

theorem map_id_of_mem {α : Type} {f : α → α} {l : List α} (h : ∀ c ∈ l, f c = c) :
    l.map f = l := by
  induction l with
  | nil => rfl
  | cons a t ih => simp [h a (by simp), ih (fun c hc => h c (by simp [hc]))]

theorem isWS_false_of_alpha {c : Char} (h1 : 65 ≤ c.toNat) (h2 : c.toNat ≤ 122) :
    isWS c = false := by
  apply decide_eq_false
  omega

theorem asciiLower_id_of_lower {c : Char} (h1 : 97 ≤ c.toNat) : asciiLower c = c := by
  simp only [asciiLower]
  rw [if_neg (by omega)]

theorem asciiUpper_id_of_upper {c : Char} (h2 : c.toNat ≤ 90) : asciiUpper c = c := by
  simp only [asciiUpper]
  rw [if_neg (by omega)]

theorem isLower3_bounds {s : String} (h : isLower3 s = true) :
    s.data.length = 3 ∧ ∀ c ∈ s.data, 97 ≤ c.toNat ∧ c.toNat ≤ 122 := by
  simp only [isLower3, Bool.and_eq_true, beq_iff_eq, List.all_eq_true,
    decide_eq_true_eq] at h
  exact ⟨h.1, fun c hc => h.2 c hc⟩

theorem isUpper3_bounds {s : String} (h : isUpper3 s = true) :
    s.data.length = 3 ∧ ∀ c ∈ s.data, 65 ≤ c.toNat ∧ c.toNat ≤ 90 := by
  simp only [isUpper3, Bool.and_eq_true, beq_iff_eq, List.all_eq_true,
    decide_eq_true_eq] at h
  exact ⟨h.1, fun c hc => h.2 c hc⟩

theorem ne_empty_of_data_length {s : String} (h : s.data.length = 3) : s ≠ "" := by
  intro heq
  rw [heq] at h
  simp at h

theorem jsTrim_id_of_alpha {s : String}
    (h : ∀ c ∈ s.data, 65 ≤ c.toNat ∧ c.toNat ≤ 122) : jsTrim s = s := by
  show String.mk (trimChars s.data) = s
  rw [trimChars_id (fun c hc => isWS_false_of_alpha (h c hc).1 (h c hc).2)]

theorem jsToLowerCase_id_of_lower {s : String}
    (h : ∀ c ∈ s.data, 97 ≤ c.toNat) : jsToLowerCase s = s := by
  show String.mk (s.data.map asciiLower) = s
  rw [map_id_of_mem (fun c hc => asciiLower_id_of_lower (h c hc))]

theorem jsToUpperCase_id_of_upper {s : String}
    (h : ∀ c ∈ s.data, c.toNat ≤ 90) : jsToUpperCase s = s := by
  show String.mk (s.data.map asciiUpper) = s
  rw [map_id_of_mem (fun c hc => asciiUpper_id_of_upper (h c hc))]

theorem normLang_id_of_lower3 {s : String} (h : isLower3 s = true) :
    normLang (some s) = s := by
  obtain ⟨hlen, hall⟩ := isLower3_bounds h
  have ht : jsTrim s = s :=
    jsTrim_id_of_alpha (fun c hc => ⟨by have := (hall c hc).1; omega, (hall c hc).2⟩)
  have hl : jsToLowerCase s = s := jsToLowerCase_id_of_lower (fun c hc => (hall c hc).1)
  simp [normLang, orEmpty, ht, hl, h]

theorem normCountry_id_of_upper3 {s : String} (h : isUpper3 s = true) :
    normCountry (some s) = s := by
  obtain ⟨hlen, hall⟩ := isUpper3_bounds h
  have ht : jsTrim s = s :=
    jsTrim_id_of_alpha (fun c hc => ⟨(hall c hc).1, by have := (hall c hc).2; omega⟩)
  have hu : jsToUpperCase s = s := jsToUpperCase_id_of_upper (fun c hc => (hall c hc).2)
  simp [normCountry, orEmpty, ht, hu, h]

theorem localeToken_eq {i : ComposeInput} {l c : String} (hl : normLang i.lang = l)
    (hc : normCountry i.country = c) (hln : l ≠ "") (hcn : c ≠ "") :
    localeToken i = l ++ "-" ++ c := by
  simp [localeToken, hl, hc, List.filter_cons, bne_iff_ne, hln, hcn, joinSep]

theorem substr_join {sep : String} {ts : List String} {x : String} (hx : x ∈ ts) :
    substrOf x (joinSep sep ts) := by
  induction ts with
  | nil => cases hx
  | cons y rest ih =>
    cases rest with
    | nil =>
      rcases List.mem_singleton.mp hx with rfl
      exact ⟨[], [], by simp [joinSep]⟩
    | cons z rs =>
      rcases List.mem_cons.mp hx with rfl | hmem
      · exact ⟨[], (sep ++ joinSep sep (z :: rs)).data, by simp [joinSep]⟩
      · obtain ⟨p, q, hpq⟩ := ih hmem
        exact ⟨(y ++ sep).data ++ p, q, by simp [joinSep, hpq]⟩

theorem composeName_filter (i : ComposeInput) :
    composeName i = joinSep " - " ((tokensOf i).filter (fun t => t != "")) := by
  simp only [composeName, tokensOf]
  split_ifs <;> simp_all [List.filter_cons, bne_iff_ne]

/-! ### Claim theorems -/

/-- C1: composeName builds the ordered candidate tokens (cleaned name,
locale token, cleaned event, compact date only when includeDate is set),
joins the non-empty ones with the separator " - " omitting every token
that normalizes to empty, returns the empty string when all inputs are
empty, and maps the end-to-end example to
"Intro to ML - eng-USA - Fall Cohort - 20240901". -/
theorem composeName_spec :
    (∀ i : ComposeInput,
        composeName i = joinSep " - " ((tokensOf i).filter (fun t => t != ""))) ∧
    composeName ⟨some "Intro to ML", some "ENG", some "usa", some "Fall Cohort",
        true, some "2024-09-01"⟩ = "Intro to ML - eng-USA - Fall Cohort - 20240901" ∧
    composeName ⟨some "", some "", some "", some "", false, none⟩ = "" :=
  ⟨composeName_filter, by decide, by decide⟩

/-- C2: for every three-letter lowercase code l and three-letter uppercase
code c, the composed name contains the substring l-hyphen-c; and whenever
the language normalizes to empty while the country is valid, the locale
token is the country code alone with no leading hyphen. -/
theorem composeName_locale_props :
    (∀ (l c : String) (i : ComposeInput), isLower3 l = true → isUpper3 c = true →
        i.lang = some l → i.country = some c →
        substrOf (l ++ "-" ++ c) (composeName i)) ∧
    (∀ i : ComposeInput, normLang i.lang = "" → normCountry i.country ≠ "" →
        localeToken i = normCountry i.country) := by
  constructor
  · intro l c i hl hc hil hic
    have hnl : normLang i.lang = l := by rw [hil]; exact normLang_id_of_lower3 hl
    have hnc : normCountry i.country = c := by rw [hic]; exact normCountry_id_of_upper3 hc
    have hln : l ≠ "" := ne_empty_of_data_length (isLower3_bounds hl).1
    have hcn : c ≠ "" := ne_empty_of_data_length (isUpper3_bounds hc).1
    have hloc : localeToken i = l ++ "-" ++ c := localeToken_eq hnl hnc hln hcn
    have hne : localeToken i ≠ "" := by
      rw [hloc]
      intro heq
      have h2 : (l ++ "-" ++ c).data = ("" : String).data := by rw [heq]
      simp at h2
    rw [composeName_filter]
    rw [← hloc]
    apply substr_join
    apply List.mem_filter.mpr
    refine ⟨by simp [tokensOf], by simp [bne_iff_ne, hne]⟩
  · intro i h0 hc
    simp [localeToken, h0, List.filter_cons, bne_iff_ne, hc, joinSep]

/-- Witness for C2 at a concrete valid pair of codes and a concrete
language-empty input. -/
theorem composeName_locale_props_witness :
    substrOf ("eng" ++ "-" ++ "USA")
      (composeName ⟨some "Course", some "eng", some "USA", none, false, none⟩) ∧
    localeToken ⟨none, some "zz", some "usa", none, false, none⟩ = "USA" := by
  constructor
  · exact composeName_locale_props.1 "eng" "USA" _ (by decide) (by decide) rfl rfl
  · exact composeName_locale_props.2 _ (by decide) (by decide)

/-- C3: normalizeLanguage trims and lowercases and keeps the result
exactly when it is three lowercase Latin letters, otherwise yields the
empty string; normalizeCountry does the same with uppercasing and three
uppercase letters; and the three concrete examples of the spec hold. -/
theorem normalizers_spec :
    (∀ s : Option String,
        (isLower3 (jsToLowerCase (jsTrim (orEmpty s))) = true →
          normLang s = jsToLowerCase (jsTrim (orEmpty s))) ∧
        (isLower3 (jsToLowerCase (jsTrim (orEmpty s))) = false → normLang s = "") ∧
        (normLang s ≠ "" → isLower3 (normLang s) = true)) ∧
    (∀ s : Option String,
        (isUpper3 (jsToUpperCase (jsTrim (orEmpty s))) = true →
          normCountry s = jsToUpperCase (jsTrim (orEmpty s))) ∧
        (isUpper3 (jsToUpperCase (jsTrim (orEmpty s))) = false → normCountry s = "") ∧
        (normCountry s ≠ "" → isUpper3 (normCountry s) = true)) ∧
    normLang (some "EN") = "" ∧ normLang (some "eng") = "eng" ∧
    normLang (some " ENG ") = "eng" := by
  refine ⟨fun s => ⟨?_, ?_, ?_⟩, fun s => ⟨?_, ?_, ?_⟩, by decide, by decide, by decide⟩
  · intro h; simp [normLang, h]
  · intro h; simp [normLang, h]
  · intro hne
    cases h : isLower3 (jsToLowerCase (jsTrim (orEmpty s))) with
    | true =>
      simp only [normLang]
      rw [if_pos h]
      exact h
    | false =>
      exact absurd (by simp only [normLang]; rw [if_neg (by simp [h])]) hne
  · intro h; simp [normCountry, h]
  · intro h; simp [normCountry, h]
  · intro hne
    cases h : isUpper3 (jsToUpperCase (jsTrim (orEmpty s))) with
    | true =>
      simp only [normCountry]
      rw [if_pos h]
      exact h
    | false =>
      exact absurd (by simp only [normCountry]; rw [if_neg (by simp [h])]) hne

/-- Witness for C3 at concrete inputs with discharged side conditions. -/
theorem normalizers_spec_witness :
    normLang (some " FRA ") = "fra" ∧ normCountry (some " de ") = "" := by
  constructor
  · exact (normalizers_spec.1 (some " FRA ")).1 (by decide)
  · exact (normalizers_spec.2.1 (some " de ")).2.1 (by decide)

theorem setCache_same (store : Store) (t : Int) (k : String) (d : List ReferenceEntry) :
    setCache store t k d k = some (StoredValue.entry t d) := by
  simp [setCache]

theorem getCache_eq (store : Store) (now : Int) (key : String) (ts : Int)
    (d : List ReferenceEntry) (hs : store key = some (StoredValue.entry ts d)) :
    getCache store now key = if now - ts > TTL then none else some d := by
  rw [getCache, hs]

/-- C4: setting a key and reading it back at the same or a later time
within the TTL returns the stored data, and a read strictly more than
TTL milliseconds after the stored timestamp returns null. -/
theorem cache_roundtrip_ttl :
    (∀ (store : Store) (k : String) (d : List ReferenceEntry) (t u : Int),
        t ≤ u → u - t ≤ TTL → getCache (setCache store t k d) u k = some d) ∧
    (∀ (store : Store) (k : String) (ts : Int) (d : List ReferenceEntry) (u : Int),
        store k = some (StoredValue.entry ts d) → u - ts > TTL →
        getCache store u k = none) := by
  constructor
  · intro store k d t u _ hle
    rw [getCache_eq _ _ _ t d (setCache_same store t k d), if_neg (by omega)]
  · intro store k ts d u hs hgt
    rw [getCache_eq _ _ _ ts d hs, if_pos hgt]

/-- Witness for C4: a concrete round trip and a concrete expiry. -/
theorem cache_roundtrip_ttl_witness :
    getCache (setCache (fun _ => none) 0 "k" [⟨"eng", "English"⟩]) 5 "k" =
      some [⟨"eng", "English"⟩] ∧
    getCache (fun k => if k = "k" then some (StoredValue.entry 0 []) else none)
      (TTL + 1) "k" = none := by
  constructor
  · exact cache_roundtrip_ttl.1 _ "k" _ 0 5 (by norm_num) (by norm_num [TTL])
  · exact cache_roundtrip_ttl.2 _ "k" 0 [] (TTL + 1) (by simp) (by omega)

/-- C5: getCache is total and typed: it returns null exactly when the key
is absent, the stored value is malformed or parses to a falsy value, or
the entry is expired; a fresh well-formed entry is returned as data. -/
theorem getCache_total :
    ∀ (store : Store) (now : Int) (key : String),
      (getCache store now key = none ↔
        store key = none ∨ store key = some StoredValue.malformed ∨
        store key = some StoredValue.parsedFalsy ∨
        ∃ ts data, store key = some (StoredValue.entry ts data) ∧ now - ts > TTL) ∧
      (∀ ts data, store key = some (StoredValue.entry ts data) → now - ts ≤ TTL →
        getCache store now key = some data) := by
  intro store now key
  constructor
  · cases hs : store key with
    | none => rw [getCache, hs]; simp [hs]
    | some v =>
      cases v with
      | malformed => rw [getCache, hs]; simp [hs]
      | parsedFalsy => rw [getCache, hs]; simp [hs]
      | entry ts d =>
        rw [getCache_eq _ _ _ ts d hs]
        by_cases h : now - ts > TTL
        · rw [if_pos h]
          simp only [hs, true_iff]
          exact Or.inr (Or.inr (Or.inr ⟨ts, d, rfl, h⟩))
        · rw [if_neg h]
          simp [hs]
          omega
  · intro ts d hs hle
    rw [getCache_eq _ _ _ ts d hs, if_neg (by omega)]

/-- Witness for C5: a fresh entry is read back as its data. -/
theorem getCache_total_witness :
    getCache (fun k => if k = "a" then some (StoredValue.entry 3 languagesStub) else none)
      3 "a" = some languagesStub := by
  exact (getCache_total _ 3 "a").2 3 languagesStub (by simp) (by norm_num [TTL])

/-- C8: when the cache misses and the remote fetch fails, each pipeline
returns its built-in static stub of ten entries, performs no cache
write, and raises nothing (it is a total function into FetchOutcome). -/
theorem fetch_static_fallback :
    ∀ (le : String → String → Bool) (store : Store) (now : Int),
      (getCache store now countriesKey = none →
        fetchCountries le store now none = ⟨countriesStub, store, true⟩) ∧
      (getCache store now languagesKey = none →
        fetchLanguages le store now none = ⟨languagesStub, store, true⟩) ∧
      countriesStub.length = 10 ∧ languagesStub.length = 10 := by
  intro le store now
  refine ⟨fun h => ?_, fun h => ?_, by decide, by decide⟩
  · rw [fetchCountries.eq_def, h]
  · rw [fetchLanguages.eq_def, h]

/-- Witness for C8: the fallback on the empty store with a failed fetch. -/
theorem fetch_static_fallback_witness :
    fetchCountries lcCompareLe (fun _ => none) 0 none =
      ⟨countriesStub, (fun _ => none), true⟩ :=
  (fetch_static_fallback lcCompareLe (fun _ => none) 0).1 rfl

/-- C9: whenever the cache returns non-null data for the dataset key, the
pipeline returns exactly that data for every possible remote behaviour,
with no network request issued and no cache write. -/
theorem fetch_cache_hit :
    ∀ (le : String → String → Bool) (store : Store) (now : Int)
      (d : List ReferenceEntry) (rc : Option (List CountryRow))
      (rl : Option (List LangRow)),
      (getCache store now countriesKey = some d →
        fetchCountries le store now rc = ⟨d, store, false⟩) ∧
      (getCache store now languagesKey = some d →
        fetchLanguages le store now rl = ⟨d, store, false⟩) := by
  intro le store now d rc rl
  constructor
  · intro h; rw [fetchCountries.eq_def, h]
  · intro h; rw [fetchLanguages.eq_def, h]

/-- Witness for C9: a cache hit short-circuits a would-be successful
remote response and leaves the store unchanged. -/
theorem fetch_cache_hit_witness :
    fetchCountries lcCompareLe
      (fun k => if k = countriesKey then some (StoredValue.entry 0 countriesStub) else none)
      0 (some [⟨some "ZZZ", some "Zedland"⟩]) =
      ⟨countriesStub,
       (fun k => if k = countriesKey then some (StoredValue.entry 0 countriesStub) else none),
       false⟩ :=
  (fetch_cache_hit lcCompareLe _ 0 countriesStub (some [⟨some "ZZZ", some "Zedland"⟩])
    none).1 (by decide)

theorem insertSorted_perm {α : Type} (le : α → α → Bool) (x : α) (l : List α) :
    (insertSorted le x l).Perm (x :: l) := by
  induction l with
  | nil => exact List.Perm.refl _
  | cons y ys ih =>
    rw [insertSorted]
    by_cases h : le y x = true
    · rw [if_pos h]
      exact (ih.cons y).trans (List.Perm.swap x y ys)
    · rw [if_neg h]

theorem foldl_insert_perm {α : Type} (le : α → α → Bool) :
    ∀ (l acc : List α),
      (l.foldl (fun acc x => insertSorted le x acc) acc).Perm (acc ++ l) := by
  intro l
  induction l with
  | nil => intro acc; simp
  | cons x xs ih =>
    intro acc
    rw [List.foldl_cons]
    have h1 := ih (insertSorted le x acc)
    have h2 : (insertSorted le x acc ++ xs).Perm ((x :: acc) ++ xs) :=
      (insertSorted_perm le x acc).append_right xs
    exact (h1.trans h2).trans List.perm_middle.symm

theorem jsSort_perm {α : Type} (le : α → α → Bool) (l : List α) :
    (jsSort le l).Perm l := by
  have h := foldl_insert_perm le l []
  simpa [jsSort] using h

theorem insertSorted_sorted {α : Type} {le : α → α → Bool}
    (htot : ∀ a b, (le a b || le b a) = true)
    (htrans : ∀ a b c, le a b = true → le b c = true → le a c = true)
    {x : α} {l : List α} (hl : l.Pairwise (fun a b => le a b = true)) :
    (insertSorted le x l).Pairwise (fun a b => le a b = true) := by
  induction l with
  | nil => simp [insertSorted]
  | cons y ys ih =>
    rcases List.pairwise_cons.mp hl with ⟨hy, hys⟩
    rw [insertSorted]
    by_cases h : le y x = true
    · rw [if_pos h]
      refine List.pairwise_cons.mpr ⟨?_, ih hys⟩
      intro b hb
      rcases List.mem_cons.mp ((insertSorted_perm le x ys).mem_iff.mp hb) with rfl | hbys
      · exact h
      · exact hy b hbys
    · rw [if_neg h]
      have hx : le x y = true := by
        have h2 := htot x y
        cases hxy : le x y <;> cases hyx : le y x <;> simp_all
      refine List.pairwise_cons.mpr ⟨?_, hl⟩
      intro b hb
      rcases List.mem_cons.mp hb with rfl | hbys
      · exact hx
      · exact htrans x y b hx (hy b hbys)

theorem foldl_insert_sorted {α : Type} {le : α → α → Bool}
    (htot : ∀ a b, (le a b || le b a) = true)
    (htrans : ∀ a b c, le a b = true → le b c = true → le a c = true) :
    ∀ (l acc : List α), acc.Pairwise (fun a b => le a b = true) →
      (l.foldl (fun acc x => insertSorted le x acc) acc).Pairwise
        (fun a b => le a b = true) := by
  intro l
  induction l with
  | nil => intro acc h; exact h
  | cons x xs ih =>
    intro acc h
    rw [List.foldl_cons]
    exact ih _ (insertSorted_sorted htot htrans h)

theorem jsSort_sorted {α : Type} {le : α → α → Bool}
    (htot : ∀ a b, (le a b || le b a) = true)
    (htrans : ∀ a b c, le a b = true → le b c = true → le a c = true)
    (l : List α) :
    (jsSort le l).Pairwise (fun a b => le a b = true) :=
  foldl_insert_sorted htot htrans l [] List.Pairwise.nil

/-- C6 counterexample: the countries pipeline neither deduplicates nor
requires three-letter codes.  Two identical successful rows yield two
identical entries in the returned dataset, and a row whose code has only
two letters is kept as is. -/
theorem fetchCountries_claim_counterexample :
    ¬ (fetchCountries lcCompareLe (fun _ => none) 0 (some [dupRow, dupRow])).data.Nodup ∧
    (fetchCountries lcCompareLe (fun _ => none) 0 (some [zzRow])).data =
      [⟨"ZZ", "Zedland"⟩] := by
  constructor
  · decide
  · decide

/-- C6 amended: on a cache miss with a successful response, the countries
pipeline keeps exactly the rows whose code field and common name are
present and non-empty, maps each to its uppercased code and common name,
sorts the result ascending by name under the locale comparator without
deduplicating, writes the result through to the cache under the
countries key, and returns it. -/
theorem fetchCountries_transform :
    ∀ (le : String → String → Bool) (store : Store) (now : Int) (rows : List CountryRow),
      (∀ a b, (le a b || le b a) = true) →
      (∀ a b c, le a b = true → le b c = true → le a c = true) →
      getCache store now countriesKey = none →
      ((fetchCountries le store now (some rows)).data).Perm
          ((rows.filter countryRowOk).map countryEntry) ∧
      ((fetchCountries le store now (some rows)).data).Pairwise
          (fun e1 e2 => le e1.name e2.name = true) ∧
      (fetchCountries le store now (some rows)).store countriesKey =
        some (StoredValue.entry now ((fetchCountries le store now (some rows)).data)) ∧
      (fetchCountries le store now (some rows)).networkUsed = true := by
  intro le store now rows htot htrans hmiss
  have hout : fetchCountries le store now (some rows) =
      ⟨countriesTransform le rows,
       setCache store now countriesKey (countriesTransform le rows), true⟩ := by
    rw [fetchCountries.eq_def, hmiss]
  rw [hout]
  refine ⟨?_, ?_, ?_, rfl⟩
  · exact jsSort_perm _ _
  · exact jsSort_sorted (fun a b => htot a.name b.name)
      (fun a b c hab hbc => htrans a.name b.name c.name hab hbc) _
  · exact setCache_same store now countriesKey (countriesTransform le rows)

/-- Witness for C6 at a concrete comparator, store and row list. -/
theorem fetchCountries_transform_witness :
    ((fetchCountries lcCompareLe (fun _ => none) 0 (some [dupRow])).data).Perm
        (([dupRow].filter countryRowOk).map countryEntry) ∧
    ((fetchCountries lcCompareLe (fun _ => none) 0 (some [dupRow])).data).Pairwise
        (fun e1 e2 => lcCompareLe e1.name e2.name = true) ∧
    (fetchCountries lcCompareLe (fun _ => none) 0 (some [dupRow])).store countriesKey =
      some (StoredValue.entry 0
        ((fetchCountries lcCompareLe (fun _ => none) 0 (some [dupRow])).data)) ∧
    (fetchCountries lcCompareLe (fun _ => none) 0 (some [dupRow])).networkUsed = true :=
  fetchCountries_transform lcCompareLe (fun _ => none) 0 [dupRow]
    (fun a b => charListLe_total a.data b.data)
    (fun a b c => charListLe_trans a.data b.data c.data) rfl

theorem foldl_addLang_nil {ps : List (String × String)}
    (h : ∀ p ∈ ps, isLower3 (jsToLowerCase p.1) = false) :
    ps.foldl addLangEntry [] = [] := by
  induction ps with
  | nil => rfl
  | cons p rest ih =>
    rw [List.foldl_cons]
    have h0 : addLangEntry [] p = [] := by
      simp [addLangEntry, h p (by simp)]
    rw [h0]
    exact ih (fun q hq => h q (by simp [hq]))

theorem collectLangs_eq_nil {rows : List LangRow}
    (h : ∀ p ∈ rows.flatten, isLower3 (jsToLowerCase p.1) = false) :
    collectLangs rows = [] :=
  foldl_addLang_nil h

/-- C10: a successful remote response whose rows are all dropped by the
transform filters is treated as success, not failure: each pipeline
returns the empty list, writes it through to the cache, and does not
return the static stub. -/
theorem fetch_empty_success :
    ∀ (le : String → String → Bool) (store : Store) (now : Int)
      (crows : List CountryRow) (lrows : List LangRow),
      getCache store now countriesKey = none →
      crows.filter countryRowOk = [] →
      getCache store now languagesKey = none →
      (∀ p ∈ lrows.flatten, isLower3 (jsToLowerCase p.1) = false) →
      (fetchCountries le store now (some crows)).data = [] ∧
      (fetchCountries le store now (some crows)).store countriesKey =
        some (StoredValue.entry now []) ∧
      (fetchCountries le store now (some crows)).data ≠ countriesStub ∧
      (fetchLanguages le store now (some lrows)).data = [] ∧
      (fetchLanguages le store now (some lrows)).store languagesKey =
        some (StoredValue.entry now []) ∧
      (fetchLanguages le store now (some lrows)).data ≠ languagesStub := by
  intro le store now crows lrows hmc hfc hml hfl
  have hct : countriesTransform le crows = [] := by
    simp only [countriesTransform, hfc, List.map_nil]
    rfl
  have hlt : languagesTransform le lrows = [] := by
    rw [languagesTransform, collectLangs_eq_nil hfl]
    rfl
  have hc : fetchCountries le store now (some crows) =
      ⟨[], setCache store now countriesKey [], true⟩ := by
    rw [fetchCountries.eq_def, hmc]
    simp [hct]
  have hl : fetchLanguages le store now (some lrows) =
      ⟨[], setCache store now languagesKey [], true⟩ := by
    rw [fetchLanguages.eq_def, hml]
    simp [hlt]
  rw [hc, hl]
  refine ⟨rfl, ?_, ?_, rfl, ?_, ?_⟩
  · exact setCache_same store now countriesKey []
  · show ([] : List ReferenceEntry) ≠ countriesStub
    decide
  · exact setCache_same store now languagesKey []
  · show ([] : List ReferenceEntry) ≠ languagesStub
    decide

/-- Witness for C10: one malformed country row and one language row whose
single code is not three letters. -/
theorem fetch_empty_success_witness :
    (fetchCountries lcCompareLe (fun _ => none) 0 (some [⟨none, none⟩])).data = [] ∧
    (fetchCountries lcCompareLe (fun _ => none) 0
        (some [⟨none, none⟩])).store countriesKey = some (StoredValue.entry 0 []) ∧
    (fetchCountries lcCompareLe (fun _ => none) 0 (some [⟨none, none⟩])).data ≠
      countriesStub ∧
    (fetchLanguages lcCompareLe (fun _ => none) 0 (some [[("x", "y")]])).data = [] ∧
    (fetchLanguages lcCompareLe (fun _ => none) 0
        (some [[("x", "y")]])).store languagesKey = some (StoredValue.entry 0 []) ∧
    (fetchLanguages lcCompareLe (fun _ => none) 0 (some [[("x", "y")]])).data ≠
      languagesStub :=
  fetch_empty_success lcCompareLe (fun _ => none) 0 [⟨none, none⟩] [[("x", "y")]]
    rfl (by decide) rfl (by decide)

theorem firstNorm_nil (c : String) : firstNorm [] c = none := rfl

theorem firstNorm_cons_invalid {p : String × String} {ps : List (String × String)}
    {c : String} (h : isLower3 (jsToLowerCase p.1) = false) :
    firstNorm (p :: ps) c = firstNorm ps c := by
  simp [firstNorm, List.filterMap_cons, normPair, h]

theorem firstNorm_cons_valid_eq {p : String × String} {ps : List (String × String)}
    (h : isLower3 (jsToLowerCase p.1) = true) :
    firstNorm (p :: ps) (jsToLowerCase p.1) = some p.2 := by
  simp [firstNorm, List.filterMap_cons, normPair, h, List.find?_cons]

theorem firstNorm_cons_valid_ne {p : String × String} {ps : List (String × String)}
    {c : String} (h : isLower3 (jsToLowerCase p.1) = true)
    (hne : jsToLowerCase p.1 ≠ c) :
    firstNorm (p :: ps) c = firstNorm ps c := by
  simp [firstNorm, List.filterMap_cons, normPair, h, List.find?_cons, hne]

theorem addLang_skip {acc : List ReferenceEntry} {p : String × String}
    (h : isLower3 (jsToLowerCase p.1) = false) : addLangEntry acc p = acc := by
  simp [addLangEntry, h]

theorem addLang_dup {acc : List ReferenceEntry} {p : String × String}
    (hv : isLower3 (jsToLowerCase p.1) = true)
    (hmem : (acc.any (fun a => a.code == jsToLowerCase p.1)) = true) :
    addLangEntry acc p = acc := by
  simp [addLangEntry, hv, hmem]

theorem addLang_new {acc : List ReferenceEntry} {p : String × String}
    (hv : isLower3 (jsToLowerCase p.1) = true)
    (hmem : ¬ (acc.any (fun a => a.code == jsToLowerCase p.1)) = true) :
    addLangEntry acc p = acc ++ [⟨jsToLowerCase p.1, p.2⟩] := by
  simp only [addLangEntry, hv, if_true]
  rw [if_neg hmem]

theorem foldl_addLang_mem :
    ∀ (ps : List (String × String)) (acc : List ReferenceEntry) (e : ReferenceEntry),
      e ∈ ps.foldl addLangEntry acc ↔
        e ∈ acc ∨ ((∀ a ∈ acc, a.code ≠ e.code) ∧ firstNorm ps e.code = some e.name) := by
  intro ps
  induction ps with
  | nil =>
    intro acc e
    simp [firstNorm_nil]
  | cons p rest ih =>
    intro acc e
    rw [List.foldl_cons]
    by_cases hv : isLower3 (jsToLowerCase p.1) = true
    · by_cases hmem : (acc.any (fun a => a.code == jsToLowerCase p.1)) = true
      · rw [addLang_dup hv hmem, ih acc e]
        by_cases hec : jsToLowerCase p.1 = e.code
        · have hfalse : ¬ (∀ a ∈ acc, a.code ≠ e.code) := by
            intro hall
            obtain ⟨a, ha, hac⟩ := List.any_eq_true.mp hmem
            exact hall a ha (by rw [beq_iff_eq] at hac; rw [hac, hec])
          simp [hfalse]
        · rw [firstNorm_cons_valid_ne hv hec]
      · rw [addLang_new hv hmem, ih _ e]
        have hfresh : ∀ a ∈ acc, a.code ≠ jsToLowerCase p.1 := by
          intro a ha heq
          exact hmem (List.any_eq_true.mpr ⟨a, ha, by rw [beq_iff_eq]; exact heq⟩)
        by_cases hec : jsToLowerCase p.1 = e.code
        · have henacc : e ∉ acc := fun hin => hfresh e hin hec.symm
          have hlhs2 : ¬ (∀ a ∈ acc ++ [⟨jsToLowerCase p.1, p.2⟩], a.code ≠ e.code) := by
            intro hall
            exact hall ⟨jsToLowerCase p.1, p.2⟩ (by simp) hec
          have hfn : firstNorm (p :: rest) e.code = some p.2 := by
            rw [← hec]
            exact firstNorm_cons_valid_eq hv
          rw [hfn]
          constructor
          · intro hcase
            rcases hcase with hin | ⟨hall, _⟩
            · rcases List.mem_append.mp hin with hin2 | hin2
              · exact absurd hin2 henacc
              · have he2 : e = ⟨jsToLowerCase p.1, p.2⟩ := List.mem_singleton.mp hin2
                refine Or.inr ⟨fun a ha => ?_, by rw [he2]⟩
                rw [← hec]
                exact hfresh a ha
            · exact absurd hall hlhs2
          · intro hcase
            rcases hcase with hin | ⟨hall, hname⟩
            · exact absurd hin henacc
            · apply Or.inl
              apply List.mem_append.mpr
              apply Or.inr
              apply List.mem_singleton.mpr
              cases e with
              | mk ec en =>
                simp only [ReferenceEntry.mk.injEq]
                exact ⟨hec.symm, (Option.some.inj hname).symm⟩
        · rw [firstNorm_cons_valid_ne hv hec]
          constructor
          · intro hcase
            rcases hcase with hin | ⟨hall, hfn⟩
            · rcases List.mem_append.mp hin with hin2 | hin2
              · exact Or.inl hin2
              · have he2 : e = ⟨jsToLowerCase p.1, p.2⟩ := List.mem_singleton.mp hin2
                exact absurd (by rw [he2]) hec
            · exact Or.inr ⟨fun a ha => hall a (List.mem_append.mpr (Or.inl ha)), hfn⟩
          · intro hcase
            rcases hcase with hin | ⟨hall, hfn⟩
            · exact Or.inl (List.mem_append.mpr (Or.inl hin))
            · refine Or.inr ⟨?_, hfn⟩
              intro a ha
              rcases List.mem_append.mp ha with ha2 | ha2
              · exact hall a ha2
              · rw [List.mem_singleton.mp ha2]
                exact hec
    · have hv2 : isLower3 (jsToLowerCase p.1) = false := by simpa using hv
      rw [addLang_skip hv2, ih acc e, firstNorm_cons_invalid hv2]

theorem collectLangs_mem (rows : List LangRow) (e : ReferenceEntry) :
    e ∈ collectLangs rows ↔ firstNorm rows.flatten e.code = some e.name := by
  rw [collectLangs, foldl_addLang_mem]
  simp

theorem foldl_addLang_nodup :
    ∀ (ps : List (String × String)) (acc : List ReferenceEntry),
      ((acc.map (fun e => e.code)).Nodup) →
      (((ps.foldl addLangEntry acc).map (fun e => e.code)).Nodup) := by
  intro ps
  induction ps with
  | nil => intro acc h; exact h
  | cons p rest ih =>
    intro acc h
    rw [List.foldl_cons]
    apply ih
    by_cases hv : isLower3 (jsToLowerCase p.1) = true
    · by_cases hmem : (acc.any (fun a => a.code == jsToLowerCase p.1)) = true
      · rwa [addLang_dup hv hmem]
      · have hnotin : jsToLowerCase p.1 ∉ acc.map (fun e => e.code) := by
          intro hin
          obtain ⟨a, ha, hac⟩ := List.mem_map.mp hin
          exact hmem (List.any_eq_true.mpr ⟨a, ha, by rw [beq_iff_eq]; exact hac⟩)
        rw [addLang_new hv hmem, List.map_append]
        exact List.Nodup.append h (List.nodup_singleton _)
          (fun a hal har => hnotin (by rwa [List.mem_singleton.mp har] at hal))
    · have hv2 : isLower3 (jsToLowerCase p.1) = false := by simpa using hv
      rwa [addLang_skip hv2]

theorem firstNorm_isLower3 {ps : List (String × String)} {c : String} {n : String}
    (h : firstNorm ps c = some n) : isLower3 c = true := by
  rw [firstNorm] at h
  cases hfind : (ps.filterMap normPair).find? (fun q => q.1 == c) with
  | none => rw [hfind] at h; simp at h
  | some q =>
    have hmem := List.mem_of_find?_eq_some hfind
    have hpred := List.find?_some hfind
    rw [beq_iff_eq] at hpred
    obtain ⟨p, _, hp⟩ := List.mem_filterMap.mp hmem
    simp only [normPair] at hp
    by_cases hv : isLower3 (jsToLowerCase p.1) = true
    · rw [if_pos hv] at hp
      have hq2 := Option.some.inj hp
      have hq1 : q.1 = jsToLowerCase p.1 := by rw [← hq2]
      rw [← hpred, hq1]
      exact hv
    · rw [if_neg hv] at hp
      exact absurd hp (by simp)

/-- C7: on a cache miss with a successful response, the languages pipeline
returns exactly the languages transform of the rows, in which every code
is an accepted three-lowercase-letter code, codes are deduplicated, each
kept entry carries the first name encountered for its code in row order,
every valid code of the response is represented, and the result is sorted
ascending by name under the locale comparator. -/
theorem fetchLanguages_transform :
    ∀ (le : String → String → Bool) (rows : List LangRow),
      (∀ a b, (le a b || le b a) = true) →
      (∀ a b c, le a b = true → le b c = true → le a c = true) →
      (∀ (store : Store) (now : Int), getCache store now languagesKey = none →
        (fetchLanguages le store now (some rows)).data = languagesTransform le rows) ∧
      (∀ e ∈ languagesTransform le rows, isLower3 e.code = true) ∧
      (((languagesTransform le rows).map (fun e => e.code)).Nodup) ∧
      (∀ e ∈ languagesTransform le rows,
        firstNorm rows.flatten e.code = some e.name) ∧
      (∀ p ∈ rows.flatten, isLower3 (jsToLowerCase p.1) = true →
        ∃ e ∈ languagesTransform le rows, e.code = jsToLowerCase p.1) ∧
      ((languagesTransform le rows).Pairwise (fun a b => le a.name b.name = true)) := by
  intro le rows htot htrans
  have hperm : (languagesTransform le rows).Perm (collectLangs rows) := by
    rw [languagesTransform]
    exact jsSort_perm _ _
  refine ⟨?_, ?_, ?_, ?_, ?_, ?_⟩
  · intro store now hmiss
    rw [fetchLanguages.eq_def, hmiss]
  · intro e he
    exact firstNorm_isLower3 ((collectLangs_mem rows e).mp (hperm.mem_iff.mp he))
  · exact (List.Perm.nodup_iff (hperm.map (fun e => e.code))).mpr
      (foldl_addLang_nodup rows.flatten [] (by simp))
  · intro e he
    exact (collectLangs_mem rows e).mp (hperm.mem_iff.mp he)
  · intro p hp hv
    have hin : (jsToLowerCase p.1, p.2) ∈ rows.flatten.filterMap normPair :=
      List.mem_filterMap.mpr ⟨p, hp, by simp [normPair, hv]⟩
    have hsome : (rows.flatten.filterMap normPair).find?
        (fun q => q.1 == jsToLowerCase p.1) |>.isSome := by
      rw [List.find?_isSome]
      exact ⟨(jsToLowerCase p.1, p.2), hin, by simp⟩
    obtain ⟨q, hq⟩ := Option.isSome_iff_exists.mp hsome
    have hq1 : q.1 = jsToLowerCase p.1 := by
      have := List.find?_some hq
      rwa [beq_iff_eq] at this
    refine ⟨⟨jsToLowerCase p.1, q.2⟩, ?_, rfl⟩
    apply hperm.mem_iff.mpr
    apply (collectLangs_mem rows _).mpr
    show firstNorm rows.flatten (jsToLowerCase p.1) = some q.2
    rw [firstNorm, hq]
    rfl
  · rw [languagesTransform]
    exact jsSort_sorted (fun a b => htot a.name b.name)
      (fun a b c hab hbc => htrans a.name b.name c.name hab hbc) _

/-- Witness for C7 on a concrete row list with a duplicate code, a code
needing lowercasing, and an invalid code. -/
theorem fetchLanguages_transform_witness :
    (∀ (store : Store) (now : Int), getCache store now languagesKey = none →
      (fetchLanguages lcCompareLe store now
          (some [[("Eng", "English"), ("ENG", "Dup"), ("x", "Bad")]])).data =
        languagesTransform lcCompareLe [[("Eng", "English"), ("ENG", "Dup"), ("x", "Bad")]]) ∧
    (∀ e ∈ languagesTransform lcCompareLe [[("Eng", "English"), ("ENG", "Dup"), ("x", "Bad")]],
      isLower3 e.code = true) ∧
    (((languagesTransform lcCompareLe
        [[("Eng", "English"), ("ENG", "Dup"), ("x", "Bad")]]).map (fun e => e.code)).Nodup) ∧
    (∀ e ∈ languagesTransform lcCompareLe [[("Eng", "English"), ("ENG", "Dup"), ("x", "Bad")]],
      firstNorm ([[("Eng", "English"), ("ENG", "Dup"), ("x", "Bad")]] : List LangRow).flatten
        e.code = some e.name) ∧
    (∀ p ∈ ([[("Eng", "English"), ("ENG", "Dup"), ("x", "Bad")]] : List LangRow).flatten,
      isLower3 (jsToLowerCase p.1) = true →
      ∃ e ∈ languagesTransform lcCompareLe [[("Eng", "English"), ("ENG", "Dup"), ("x", "Bad")]],
        e.code = jsToLowerCase p.1) ∧
    ((languagesTransform lcCompareLe
        [[("Eng", "English"), ("ENG", "Dup"), ("x", "Bad")]]).Pairwise
      (fun a b => lcCompareLe a.name b.name = true)) :=
  fetchLanguages_transform lcCompareLe [[("Eng", "English"), ("ENG", "Dup"), ("x", "Bad")]]
    (fun a b => charListLe_total a.data b.data)
    (fun a b c => charListLe_trans a.data b.data c.data)

end FolderNaming
